import Mathlib

/-!
Verification of the constraint-resolution and range-synthesis engine of
ls-engines against its specification.

The development shallowly embeds the core of the program: semver versions
(release versions, `major.minor.patch`; the catalogs the program consumes are
lists of released engine versions, which carry no pre-release tags), a parser
and evaluator for the textual semver ranges the program builds and consumes
(wildcard, caret, comparator, `||`-unions, mirroring the node-semver grammar
for these forms, with unparsable strings rejected), the constraint extractor
(`pGraphEntries`), the per-constraint filter (`validVersionsForEngines`), the
graph intersection (`getGraphValids`), the range synthesizer with its
consistency check (`synthRange`, `pGraphRanges`), and the root resolver
(`pRootRanges`).  The program selects a single engine ("node"), and the
embedding fixes that selection where the source does.

JavaScript details that the claims hinge on are modelled explicitly: the
empty-entries branch of `getGraphValids` returns its `valids` as a still
pending promise (`PendingOr.pending`), over which `Object.entries` yields
nothing; `Semver.satisfies` with an unparsable range returns false; the falsy
`x || '*'` defaulting is `jsOr`.
-/

/-- A normalized release version token: `major.minor.patch`, any leading `v`
already stripped.  Released node versions carry no pre-release tags, so none
are modelled. -/
structure Version where
  major : Nat
  minor : Nat
  patch : Nat
deriving DecidableEq

/-- Semver precedence, `a <= b`, as node-semver's `Semver.compare` orders
release versions: lexicographic on (major, minor, patch). -/
def Version.leb (a b : Version) : Bool :=
  decide (a.major < b.major) ||
    (decide (a.major = b.major) &&
      (decide (a.minor < b.minor) ||
        (decide (a.minor = b.minor) && decide (a.patch ≤ b.patch))))

/-- Strict semver precedence, `a < b`. -/
def Version.ltb (a b : Version) : Bool :=
  decide (a.major < b.major) ||
    (decide (a.major = b.major) &&
      (decide (a.minor < b.minor) ||
        (decide (a.minor = b.minor) && decide (a.patch < b.patch))))

/-- Digit characters of a natural number. -/
def natChars (n : Nat) : List Char := Nat.toDigits 10 n

/-- Characters of the `major.minor.patch` rendering of a version. -/
def Version.renderChars (v : Version) : List Char :=
  natChars v.major ++ '.' :: natChars v.minor ++ '.' :: natChars v.patch

/-- Split a character list at every occurrence of the two-character
separator `||` (how node-semver splits a range into alternatives). -/
def splitBars : List Char → List (List Char)
  | [] => [[]]
  | '|' :: '|' :: rest => [] :: splitBars rest
  | c :: rest =>
    match splitBars rest with
    | [] => [[c]]
    | l :: ls => (c :: l) :: ls

/-- Split a character list at every `.` (version components). -/
def splitDot : List Char → List (List Char)
  | [] => [[]]
  | '.' :: rest => [] :: splitDot rest
  | c :: rest =>
    match splitDot rest with
    | [] => [[c]]
    | l :: ls => (c :: l) :: ls

/-- Split a character list at whitespace characters (empty pieces kept). -/
def splitWs : List Char → List (List Char)
  | [] => [[]]
  | c :: rest =>
    let r := splitWs rest
    if c.isWhitespace then [] :: r
    else
      match r with
      | [] => [[c]]
      | l :: ls => (c :: l) :: ls

/-- Split a character list at every single space character, keeping empty
pieces, as the JavaScript `split(' ')` does. -/
def splitSpace : List Char → List (List Char)
  | [] => [[]]
  | ' ' :: rest => [] :: splitSpace rest
  | c :: rest =>
    match splitSpace rest with
    | [] => [[c]]
    | l :: ls => (c :: l) :: ls

/-- Join character lists with a single space, the JavaScript `join(' ')`. -/
def joinSpace : List (List Char) → List Char
  | [] => []
  | [w] => w
  | w :: ws => w ++ ' ' :: joinSpace ws

/-- Drop leading and trailing whitespace. -/
def trimChars (cs : List Char) : List Char :=
  ((cs.dropWhile Char.isWhitespace).reverse.dropWhile Char.isWhitespace).reverse

/-- Digits-only reading of a natural number; anything else is rejected. -/
def parseNatChars (cs : List Char) : Option Nat :=
  match cs with
  | [] => none
  | _ =>
    cs.foldl
      (fun acc c =>
        match acc with
        | none => none
        | some n => if c.isDigit then some (n * 10 + (c.toNat - 48)) else none)
      (some 0)

/-- Primitive comparator operators of a parsed semver range. -/
inductive Cmp
  | lt
  | le
  | gt
  | ge
  | eq
deriving DecidableEq

/-- One primitive comparator: an operator and its reference version. -/
structure Comparator where
  op : Cmp
  ver : Version
deriving DecidableEq

/-- Does version `v` meet comparator `c`? -/
def Comparator.test (v : Version) (c : Comparator) : Bool :=
  match c.op with
  | .lt => Version.ltb v c.ver
  | .le => Version.leb v c.ver
  | .gt => Version.ltb c.ver v
  | .ge => Version.leb c.ver v
  | .eq => v == c.ver

/-- A parsed range: a disjunction of comparator sets; each set a conjunction.
An empty set is the universal wildcard. -/
abbrev RangeAst := List (List Comparator)

/-- Range satisfaction: some alternative whose comparators all hold. -/
def testRange (v : Version) (r : RangeAst) : Bool :=
  r.any fun cs => cs.all (Comparator.test v)

/-- Surface operator of one comparator token. -/
inductive ROp
  | gte
  | lte
  | gtOp
  | ltOp
  | eqOp
  | caretOp
  | tildeOp
  | bare
deriving DecidableEq

/-- Read the operator off the front of a comparator token. -/
def readOpChars : List Char → ROp × List Char
  | '>' :: '=' :: rest => (.gte, rest)
  | '<' :: '=' :: rest => (.lte, rest)
  | '>' :: rest => (.gtOp, rest)
  | '<' :: rest => (.ltOp, rest)
  | '=' :: rest => (.eqOp, rest)
  | '^' :: rest => (.caretOp, rest)
  | '~' :: rest => (.tildeOp, rest)
  | cs => (.bare, cs)

/-- One component of a version fragment: a number or an x-range wildcard. -/
inductive PComp
  | num (n : Nat)
  | star
deriving DecidableEq

/-- Classify one dotted component. -/
def classifyComp (cs : List Char) : Option PComp :=
  if cs = ['*'] || cs = ['x'] || cs = ['X'] then some .star
  else (parseNatChars cs).map .num

/-- A version fragment as node-semver's x-ranges see it: fully wild, or the
leading one, two or three numeric components. -/
inductive PVer
  | wild
  | mOnly (mj : Nat)
  | mm (mj mi : Nat)
  | mmp (mj mi pa : Nat)
deriving DecidableEq

/-- Read a version fragment (an optional leading `v` is stripped; a wildcard
component ends the fragment, as in node-semver's x-ranges). -/
def parseVerFrag (cs0 : List Char) : Option PVer :=
  let cs := match cs0 with
    | 'v' :: r => r
    | r => r
  match cs with
  | [] => some .wild
  | _ =>
    match (splitDot cs).mapM classifyComp with
    | none => none
    | some comps =>
      match comps with
      | [.star] => some .wild
      | [.num a] => some (.mOnly a)
      | [.star, _] => some .wild
      | [.num a, .star] => some (.mOnly a)
      | [.num a, .num b] => some (.mm a b)
      | [.star, _, _] => some .wild
      | [.num a, .star, _] => some (.mOnly a)
      | [.num a, .num b, .star] => some (.mm a b)
      | [.num a, .num b, .num c] => some (.mmp a b c)
      | _ => none

/-- Desugar one operator applied to a version fragment into primitive
comparators, following node-semver's caret and x-range rules. -/
def desugar (op : ROp) (p : PVer) : List Comparator :=
  match op, p with
  | .bare, .wild => []
  | .bare, .mOnly a => [⟨.ge, ⟨a, 0, 0⟩⟩, ⟨.lt, ⟨a + 1, 0, 0⟩⟩]
  | .bare, .mm a b => [⟨.ge, ⟨a, b, 0⟩⟩, ⟨.lt, ⟨a, b + 1, 0⟩⟩]
  | .bare, .mmp a b c => [⟨.eq, ⟨a, b, c⟩⟩]
  | .eqOp, .wild => []
  | .eqOp, .mOnly a => [⟨.ge, ⟨a, 0, 0⟩⟩, ⟨.lt, ⟨a + 1, 0, 0⟩⟩]
  | .eqOp, .mm a b => [⟨.ge, ⟨a, b, 0⟩⟩, ⟨.lt, ⟨a, b + 1, 0⟩⟩]
  | .eqOp, .mmp a b c => [⟨.eq, ⟨a, b, c⟩⟩]
  | .gte, .wild => []
  | .gte, .mOnly a => [⟨.ge, ⟨a, 0, 0⟩⟩]
  | .gte, .mm a b => [⟨.ge, ⟨a, b, 0⟩⟩]
  | .gte, .mmp a b c => [⟨.ge, ⟨a, b, c⟩⟩]
  | .lte, .wild => []
  | .lte, .mOnly a => [⟨.lt, ⟨a + 1, 0, 0⟩⟩]
  | .lte, .mm a b => [⟨.lt, ⟨a, b + 1, 0⟩⟩]
  | .lte, .mmp a b c => [⟨.le, ⟨a, b, c⟩⟩]
  | .gtOp, .wild => [⟨.lt, ⟨0, 0, 0⟩⟩]
  | .gtOp, .mOnly a => [⟨.ge, ⟨a + 1, 0, 0⟩⟩]
  | .gtOp, .mm a b => [⟨.ge, ⟨a, b + 1, 0⟩⟩]
  | .gtOp, .mmp a b c => [⟨.gt, ⟨a, b, c⟩⟩]
  | .ltOp, .wild => [⟨.lt, ⟨0, 0, 0⟩⟩]
  | .ltOp, .mOnly a => [⟨.lt, ⟨a, 0, 0⟩⟩]
  | .ltOp, .mm a b => [⟨.lt, ⟨a, b, 0⟩⟩]
  | .ltOp, .mmp a b c => [⟨.lt, ⟨a, b, c⟩⟩]
  | .caretOp, .wild => []
  | .caretOp, .mOnly a => [⟨.ge, ⟨a, 0, 0⟩⟩, ⟨.lt, ⟨a + 1, 0, 0⟩⟩]
  | .caretOp, .mm a b =>
    if a = 0 then [⟨.ge, ⟨0, b, 0⟩⟩, ⟨.lt, ⟨0, b + 1, 0⟩⟩]
    else [⟨.ge, ⟨a, b, 0⟩⟩, ⟨.lt, ⟨a + 1, 0, 0⟩⟩]
  | .caretOp, .mmp a b c =>
    if a = 0 then
      if b = 0 then [⟨.ge, ⟨0, 0, c⟩⟩, ⟨.lt, ⟨0, 0, c + 1⟩⟩]
      else [⟨.ge, ⟨0, b, c⟩⟩, ⟨.lt, ⟨0, b + 1, 0⟩⟩]
    else [⟨.ge, ⟨a, b, c⟩⟩, ⟨.lt, ⟨a + 1, 0, 0⟩⟩]
  | .tildeOp, .wild => []
  | .tildeOp, .mOnly a => [⟨.ge, ⟨a, 0, 0⟩⟩, ⟨.lt, ⟨a + 1, 0, 0⟩⟩]
  | .tildeOp, .mm a b => [⟨.ge, ⟨a, b, 0⟩⟩, ⟨.lt, ⟨a, b + 1, 0⟩⟩]
  | .tildeOp, .mmp a b c => [⟨.ge, ⟨a, b, c⟩⟩, ⟨.lt, ⟨a, b + 1, 0⟩⟩]

/-- Parse one comparator token. -/
def parseTok (cs : List Char) : Option (List Comparator) :=
  let (op, rest) := readOpChars cs
  (parseVerFrag rest).map (desugar op)

/-- Is the token exactly an operator, with its version after whitespace?
Mirrors node-semver's comparator trimming, which joins `>= 1.5` to `>=1.5`. -/
def isOpTok (t : List Char) : Bool :=
  t = ['>', '='] || t = ['<', '='] || t = ['>'] || t = ['<'] || t = ['='] ||
    t = ['^'] || t = ['~']

/-- Rejoin operator-only tokens with the version token that follows them. -/
def mergeTokens : List (List Char) → Option (List (List Char))
  | [] => some []
  | [t] => if isOpTok t then none else some [t]
  | t :: t2 :: rest =>
    if isOpTok t then (mergeTokens rest).map ((t ++ t2) :: ·)
    else (mergeTokens (t2 :: rest)).map (t :: ·)

/-- Parse one `||`-alternative: whitespace-separated comparators, all of which
must hold.  The empty alternative is the universal wildcard. -/
def parseCompSet (cs : List Char) : Option (List Comparator) :=
  match (splitWs cs).filter (fun w => !w.isEmpty) with
  | [] => some []
  | toks =>
    match mergeTokens toks with
    | none => none
    | some merged =>
      match merged.mapM parseTok with
      | none => none
      | some lists => some lists.flatten

/-- Parse a textual range as node-semver's `Range` constructor accepts it, for
the grammar this program uses; `none` is the unparsable (throwing) case. -/
def parseRange (s : String) : Option RangeAst :=
  ((splitBars s.data).map trimChars).mapM parseCompSet

/-- Model of `Semver.satisfies(v, r)`: false when the range is unparsable,
otherwise range satisfaction. -/
def satisfies (v : Version) (r : String) : Bool :=
  ((parseRange r).map (testRange v)).getD false

/-- Model of the JavaScript defaulting `x || '*'` on an optional range string
(absent and empty strings are falsy). -/
def jsOr : Option String → String
  | none => "*"
  | some s => if s == "" then "*" else s

/-- An engine mapping of a package record: engine name to declared range. -/
abbrev EngMap := List (String × String)

/-- Model of `validVersionsForEngines`, projected to the single selected
engine "node": the catalog versions satisfying the declared node range, with
the falsy default to the wildcard. -/
def validVersionsForEngines (catalog : List Version) (engines : EngMap) : List Version :=
  catalog.filter fun v => satisfies v (jsOr (List.lookup "node" engines))

/-- Boolean membership test of a version in a list. -/
def elemV (v : Version) (l : List Version) : Bool :=
  l.any fun w => w == v

/-- Model of `fast_array_intersect`: the members of one array present in all
the others (order inside the result is canonicalized by the sort that always
follows in `getGraphValids`). -/
def intersectLists : List (List Version) → List Version
  | [] => []
  | l :: rest => l.filter fun v => rest.all (elemV v)

/-- Relation sorted by in `getGraphValids`, descending semver precedence. -/
def descLe (a b : Version) : Prop := Version.leb b a = true

instance : DecidableRel descLe := fun a b => instDecidableEqBool (Version.leb b a) true

/-- Model of the JavaScript `descending sort` on a version list. -/
def sortVersionsDesc (l : List Version) : List Version :=
  List.insertionSort descLe l

/-- A JavaScript value that may still be a pending promise: `await` of the
surrounding object does not resolve a nested promise, and `Object.entries` of
a promise yields nothing. -/
inductive PendingOr (α : Type)
  | pending (val : α)
  | ready (val : α)
deriving DecidableEq

/-- The value the promise (or plain value) eventually resolves to. -/
def resolvedValue : PendingOr (List Version) → List Version
  | .pending v => v
  | .ready v => v

/-- Output of `getGraphValids`: per-package diagnostics and the merged valid
set for the node engine.  In the empty-entries branch the source returns the
`validVersionsForEngines` promise without awaiting it, so `valids` there is a
pending promise. -/
structure GraphValidsOut where
  allowed : List (String × EngMap × List Version)
  valids : PendingOr (List Version)
deriving DecidableEq

/-- Model of `getGraphValids`: full catalog (fail-open, as an unawaited
promise) on an empty constraint list, otherwise the sorted intersection of the
per-package filtered sets. -/
def getGraphValids (graphEntries : List (String × EngMap)) (catalog : List Version) :
    GraphValidsOut :=
  if graphEntries.isEmpty then
    { allowed := []
      valids := .pending (validVersionsForEngines catalog [("node", "*")]) }
  else
    let graphAllowed := graphEntries.map fun p =>
      (p.1, p.2, validVersionsForEngines catalog p.2)
    { allowed := graphAllowed
      valids := .ready (sortVersionsDesc
        (intersectLists (graphAllowed.map fun t => t.2.2))) }

/-- Model of `caret`: the caret range anchored at a full version. -/
def caret (v : Version) : String :=
  String.mk ('^' :: v.renderChars)

/-- Model of `dropPatch`: the caret-major form of an anchor version. -/
def dropPatch (v : Version) : String :=
  String.mk ('^' :: (natChars v.major ++ '.' :: natChars v.minor))

/-- Drop one leading caret, the `replace` of an anchored caret. -/
def dropCaretMark : List Char → List Char
  | '^' :: r => r
  | l => l

/-- Strip a trailing run of `.0` pairs off a reversed word. -/
def stripWordRev : List Char → List Char
  | '0' :: '.' :: rest => stripWordRev rest
  | l => l

/-- Strip the trailing `.0` run of one space-separated word, as the cosmetic
regex does before a space or the end of the string. -/
def stripWordChars (w : List Char) : List Char :=
  (stripWordRev w.reverse).reverse

/-- The cosmetic display normalization of a synthesized range string. -/
def stripDotZeros (s : String) : String :=
  String.mk (joinSpace ((splitSpace s.data).map stripWordChars))

/-- Join range strings with the logical-OR separator. -/
def joinOrs : List String → String
  | [] => ""
  | [s] => s
  | s :: rest => s ++ " || " ++ joinOrs rest

/-- One step of the `reduceRight` run detection: a version that satisfies the
caret range of the current (last) anchor is absorbed, otherwise it becomes a
new anchor. -/
def anchorStep (prev : List Version) (v : Version) : List Version :=
  match prev.getLast? with
  | none => [v]
  | some a => if satisfies v (caret a) then prev else prev ++ [v]

/-- Result of the range synthesis for one engine. -/
structure SynthOut where
  validRange : String
  displayRange : String
  throws : Bool
deriving DecidableEq

/-- Model of the range synthesis inside `pGraphRanges` for one engine:
caret-run anchors, the collapse-to-threshold preference, the consistency
check (`throws` is the thrown `RangeError`), and the cosmetic display form.
`versions` is the merged valid set, descending; the `reduceRight` of the
source scans it in ascending order. -/
def synthRange (entriesNonempty : Bool) (versions : List Version) : SynthOut :=
  let validMajorRanges : List String :=
    if entriesNonempty && !versions.isEmpty then
      ((versions.reverse.foldl anchorStep []).map dropPatch).reverse
    else ["*"]
  let lastMajor := validMajorRanges.getLast?.getD "*"
  let greaterThanLowest :=
    if lastMajor == "*" then lastMajor
    else String.mk ('>' :: '=' :: ' ' :: dropCaretMark lastMajor.data)
  let validRange :=
    if versions.all (fun v => satisfies v greaterThanLowest) then greaterThanLowest
    else joinOrs validMajorRanges
  { validRange := validRange
    displayRange := stripDotZeros validRange
    throws := !(versions.all fun v => satisfies v validRange) }

/-- Object.entries over the possibly-pending valids map: a promise has no own
enumerable properties, a resolved map holds the single node entry. -/
def pendingEntriesNode : PendingOr (List Version) → List (String × List Version)
  | .pending _ => []
  | .ready vs => [("node", vs)]

/-- Output of `pGraphRanges`: the display-range map, the raw synthesized
ranges, the valid versions recomputed from the display ranges, and whether the
consistency check threw. -/
structure GraphRangesOut where
  allowed : List (String × EngMap × List Version)
  engines : EngMap
  rangesRaw : EngMap
  valids : List (String × List Version)
  throws : Bool
deriving DecidableEq

/-- Model of `pGraphRanges`: resolve the graph, synthesize a range per engine
entry of the (possibly still pending) valids map, then recompute the valid
versions for the node engine by filtering the catalog with the synthesized
display range. -/
def pGraphRanges (graphEntries : List (String × EngMap)) (catalog : List Version) :
    GraphRangesOut :=
  let gv := getGraphValids graphEntries catalog
  let graphRanges := (pendingEntriesNode gv.valids).map fun p =>
    (p.1, synthRange (!graphEntries.isEmpty) p.2)
  let engines : EngMap := graphRanges.map fun p => (p.1, p.2.displayRange)
  { allowed := gv.allowed
    engines := engines
    rangesRaw := graphRanges.map fun p => (p.1, p.2.validRange)
    valids := [("node", validVersionsForEngines catalog engines)]
    throws := graphRanges.any fun p => p.2.throws }

/-- One record of the dependency inventory: the package name, whether the
package is bundled (`_inBundle`), and its declared engines mapping (absent
when the manifest has none). -/
structure PackageRecord where
  name : String
  bundled : Bool
  engines : Option EngMap
deriving DecidableEq

/-- JavaScript truthiness of a looked-up declared range: absent and empty
strings are falsy. -/
def jsTruthy : Option String → Bool
  | none => false
  | some s => !(s == "")

/-- Model of `pGraphEntries`: keep the records that are not bundled, have an
engines mapping with a truthy declaration for some selected engine, then keep
the tuples where some selected engine's declaration differs from the
wildcard. -/
def pGraphEntries (selectedEngines : List String) (inventory : List PackageRecord) :
    List (String × EngMap) :=
  let nodesWithEngines := inventory.filter fun r =>
    !r.bundled && r.engines.isSome &&
      selectedEngines.any fun e => jsTruthy ((r.engines.getD []).lookup e)
  let tuples := nodesWithEngines.map fun r => (r.name, r.engines.getD [])
  tuples.filter fun t =>
    selectedEngines.any fun e => !(t.2.lookup e == some "*")

/-- The specification's contribution test for one record and one selected
engine: not derived from the source, written from the spec's words ("not
bundled, declares a non-empty mapping for at least one selected engine, and at
least one of those declared ranges is not the universal wildcard"), to be
compared with `pGraphEntries`. -/
def specContributes (e : String) (r : PackageRecord) : Bool :=
  match r.engines with
  | none => false
  | some m =>
    match m.lookup e with
    | none => false
    | some s => !(s == "") && !(s == "*")

/-- Model of the equality-comparator normalization of `pRootRanges`: the first
occurrence of `=` immediately followed by a digit gains a space. -/
def normalizeEqAux : List Char → List Char
  | [] => []
  | '=' :: c :: rest =>
    if c.isDigit then '=' :: ' ' :: c :: rest
    else '=' :: normalizeEqAux (c :: rest)
  | c :: rest => c :: normalizeEqAux rest

/-- String form of the equality-comparator normalization. -/
def normalizeEq (s : String) : String :=
  String.mk (normalizeEqAux s.data)

/-- Output of the root resolution: the (normalized) declared range map and the
root valid version set. -/
structure RootOut where
  engines : List (String × Option String)
  valids : List Version
deriving DecidableEq

/-- Model of `pRootRanges`: normalize the declared root range, construct the
semver range (the constructor throws on an unparsable string, the error
branch), and filter the catalog with it. -/
def pRootRanges (catalog : List Version) (declared : Option String) :
    Except String RootOut :=
  let norm := declared.map normalizeEq
  match parseRange (jsOr norm) with
  | none => Except.error (jsOr norm)
  | some _ =>
    Except.ok
      { engines := [("node", norm)]
        valids := catalog.filter fun v => satisfies v (jsOr norm) }

/-- The root valid set when the root resolution succeeded. -/
def rootValidsOf : Except String RootOut → Option (List Version)
  | .error _ => none
  | .ok o => some o.valids

/-- Did the root resolution fail (the promise reject)? -/
def rootIsError : Except String RootOut → Bool
  | .error _ => true
  | .ok _ => false

/-! ## Order lemmas for semver precedence -/

theorem leb_iff (a b : Version) :
    Version.leb a b = true ↔
      (a.major < b.major ∨ (a.major = b.major ∧
        (a.minor < b.minor ∨ (a.minor = b.minor ∧ a.patch ≤ b.patch)))) := by
  simp [Version.leb]

instance : IsTotal Version descLe :=
  ⟨by
    intro a b
    unfold descLe
    rw [leb_iff, leb_iff]
    omega⟩

instance : IsTrans Version descLe :=
  ⟨by
    intro a b c hab hbc
    unfold descLe at hab hbc ⊢
    rw [leb_iff] at hab hbc ⊢
    omega⟩

/-! ## Satisfaction lemmas -/

theorem satisfies_of_parse {r : String} {ast : RangeAst}
    (h : parseRange r = some ast) (v : Version) :
    satisfies v r = testRange v ast := by
  simp [satisfies, h]

theorem satisfies_of_parse_none {r : String} (h : parseRange r = none)
    (v : Version) : satisfies v r = false := by
  simp [satisfies, h]

theorem satisfies_star (v : Version) : satisfies v "*" = true := rfl

theorem filter_star (catalog : List Version) :
    (catalog.filter fun v => satisfies v "*") = catalog :=
  List.filter_eq_self.mpr fun v _ => satisfies_star v

theorem vvE_star (catalog : List Version) :
    validVersionsForEngines catalog [("node", "*")] = catalog := by
  unfold validVersionsForEngines
  exact filter_star catalog

theorem satisfies_ge20 (v : Version) :
    satisfies v ">= 2.0" = Version.leb ⟨2, 0, 0⟩ v := by
  have h : parseRange ">= 2.0" = some [[⟨Cmp.ge, ⟨2, 0, 0⟩⟩]] := rfl
  rw [satisfies_of_parse h]
  simp [testRange, Comparator.test]

/-! ## Membership lemmas for the intersection and the sort -/

theorem mem_sortVersionsDesc (l : List Version) (v : Version) :
    v ∈ sortVersionsDesc l ↔ v ∈ l :=
  (List.perm_insertionSort descLe l).mem_iff

theorem sorted_sortVersionsDesc (l : List Version) :
    List.Sorted descLe (sortVersionsDesc l) :=
  List.sorted_insertionSort descLe l

theorem elemV_iff (v : Version) (l : List Version) :
    elemV v l = true ↔ v ∈ l := by
  simp [elemV]

theorem mem_intersectLists (l : List Version) (rest : List (List Version))
    (v : Version) :
    v ∈ intersectLists (l :: rest) ↔ v ∈ l ∧ ∀ l2 ∈ rest, v ∈ l2 := by
  simp [intersectLists, List.mem_filter, List.all_eq_true, elemV_iff]

theorem intersectLists_of_mem_nil {ls : List (List Version)}
    (h : [] ∈ ls) : intersectLists ls = [] := by
  cases ls with
  | nil => cases h
  | cons l rest =>
    rcases List.mem_cons.mp h with h1 | h2
    · rw [intersectLists, ← h1]
      rfl
    · rw [intersectLists]
      refine List.filter_eq_nil_iff.mpr fun v _ => ?_
      simp only [List.all_eq_true, not_forall]
      exact ⟨[], h2, by simp [elemV]⟩

/-! ## Anchor-run lemmas -/

theorem anchorStep_ne_nil (prev : List Version) (v : Version)
    (h : prev ≠ []) : anchorStep prev v ≠ [] := by
  unfold anchorStep
  cases prev with
  | nil => exact absurd rfl h
  | cons x xs =>
    cases hl : (x :: xs).getLast? with
    | none => simp at hl
    | some a =>
      by_cases hs : satisfies v (caret a) = true
      · simp [hs]
      · simp [hs]

theorem anchorStep_head (prev : List Version) (v : Version)
    (h : prev ≠ []) : (anchorStep prev v).head? = prev.head? := by
  unfold anchorStep
  cases prev with
  | nil => exact absurd rfl h
  | cons x xs =>
    cases hl : (x :: xs).getLast? with
    | none => simp at hl
    | some a =>
      by_cases hs : satisfies v (caret a) = true
      · simp [hs]
      · simp [hs]

theorem foldl_anchorStep_props (t : List Version) :
    ∀ acc : List Version, acc ≠ [] →
      (List.foldl anchorStep acc t).head? = acc.head? ∧
        List.foldl anchorStep acc t ≠ [] := by
  induction t with
  | nil => intro acc h; exact ⟨rfl, h⟩
  | cons v t ih =>
    intro acc h
    have hne := anchorStep_ne_nil acc v h
    have hh := anchorStep_head acc v h
    rw [List.foldl_cons]
    exact ⟨(ih (anchorStep acc v) hne).1.trans hh, (ih (anchorStep acc v) hne).2⟩

theorem anchors_head (v : Version) (t : List Version) :
    ((v :: t).foldl anchorStep []).head? = some v ∧
      (v :: t).foldl anchorStep [] ≠ [] := by
  rw [List.foldl_cons]
  have hstep : anchorStep [] v = [v] := rfl
  rw [hstep]
  exact foldl_anchorStep_props t [v] (by simp)

/-! ## Filter and map commutation for the extractor -/

theorem filter_map_filter {α β : Type} (f : α → β) (p : α → Bool)
    (q : β → Bool) (l : List α) :
    ((l.filter p).map f).filter q =
      (l.filter fun x => p x && q (f x)).map f := by
  induction l with
  | nil => rfl
  | cons x xs ih =>
    by_cases hp : p x = true
    · by_cases hq : q (f x) = true
      · simp [hp, hq, ih]
      · have hq2 : q (f x) = false := by
          cases hqv : q (f x) with
          | false => rfl
          | true => exact absurd hqv hq
        simp [hp, hq2, ih]
    · have hp2 : p x = false := by
        cases hpv : p x with
        | false => rfl
        | true => exact absurd hpv hp
      simp [hp2, ih]

/-! ## Claim theorems -/

/-- C1: the synthesis round trip fails on the code.  For the catalog
{1.5.0, 1.7.0, 1.9.0} and the single dependency constraint
"1.5.0 || 1.9.0", the graph resolver produces the ValidVersionSet
{1.9.0, 1.5.0}, the synthesizer emits the candidate range ">= 1.5", filtering
the catalog with that range yields all three catalog versions (a strict
superset of the set), and no error is thrown: the range does not denote the
set exactly, refuting the round-trip invariant the claim states. -/
theorem c1_roundTrip_failure :
    resolvedValue (getGraphValids [("p", [("node", "1.5.0 || 1.9.0")])]
        [⟨1, 5, 0⟩, ⟨1, 7, 0⟩, ⟨1, 9, 0⟩]).valids = [⟨1, 9, 0⟩, ⟨1, 5, 0⟩] ∧
    (pGraphRanges [("p", [("node", "1.5.0 || 1.9.0")])]
        [⟨1, 5, 0⟩, ⟨1, 7, 0⟩, ⟨1, 9, 0⟩]).rangesRaw = [("node", ">= 1.5")] ∧
    ([⟨1, 5, 0⟩, ⟨1, 7, 0⟩, ⟨1, 9, 0⟩] : List Version).filter
        (fun v => satisfies v ">= 1.5") = [⟨1, 5, 0⟩, ⟨1, 7, 0⟩, ⟨1, 9, 0⟩] ∧
    (pGraphRanges [("p", [("node", "1.5.0 || 1.9.0")])]
        [⟨1, 5, 0⟩, ⟨1, 7, 0⟩, ⟨1, 9, 0⟩]).throws = false := by
  decide

/-- C2: the disjoint-majors fallback is not taken.  For the catalog spanning
majors 1, 2 and 3 and the ValidVersionSet {1.5.0, 1.9.0, 3.0.0, 3.2.0}
(every major-2 version excluded, produced by the constraint "^1.5 || ^3.0"),
the synthesizer emits the single threshold ">= 1.5" — the expression the
claim says it must not produce — because every member of the set satisfies
the threshold and the guard never consults the excluded catalog versions; the
recomputed valid set then wrongly contains the major-2 versions. -/
theorem c2_threshold_instead_of_union :
    resolvedValue (getGraphValids [("p", [("node", "^1.5 || ^3.0")])]
        [⟨1, 5, 0⟩, ⟨1, 9, 0⟩, ⟨2, 0, 0⟩, ⟨2, 5, 0⟩, ⟨3, 0, 0⟩, ⟨3, 2, 0⟩]).valids =
      [⟨3, 2, 0⟩, ⟨3, 0, 0⟩, ⟨1, 9, 0⟩, ⟨1, 5, 0⟩] ∧
    (pGraphRanges [("p", [("node", "^1.5 || ^3.0")])]
        [⟨1, 5, 0⟩, ⟨1, 9, 0⟩, ⟨2, 0, 0⟩, ⟨2, 5, 0⟩, ⟨3, 0, 0⟩, ⟨3, 2, 0⟩]).rangesRaw =
      [("node", ">= 1.5")] ∧
    (pGraphRanges [("p", [("node", "^1.5 || ^3.0")])]
        [⟨1, 5, 0⟩, ⟨1, 9, 0⟩, ⟨2, 0, 0⟩, ⟨2, 5, 0⟩, ⟨3, 0, 0⟩, ⟨3, 2, 0⟩]).valids =
      [("node", [⟨1, 5, 0⟩, ⟨1, 9, 0⟩, ⟨2, 0, 0⟩, ⟨2, 5, 0⟩, ⟨3, 0, 0⟩, ⟨3, 2, 0⟩])] := by
  decide

/-- C5: the consistency check is one-directional.  For the catalog
{2.0.0, 2.3.0, 2.6.0} and the ValidVersionSet {2.6.0, 2.0.0} (from the
constraint "2.0.0 || 2.6.0"), the candidate range is ">= 2.0"; re-filtering
the catalog with it yields all three catalog versions — a membership
different from the set — yet no fatal error is raised, because the code only
checks that every member of the set satisfies the candidate. -/
theorem c5_no_error_on_mismatch :
    resolvedValue (getGraphValids [("q", [("node", "2.0.0 || 2.6.0")])]
        [⟨2, 0, 0⟩, ⟨2, 3, 0⟩, ⟨2, 6, 0⟩]).valids = [⟨2, 6, 0⟩, ⟨2, 0, 0⟩] ∧
    (pGraphRanges [("q", [("node", "2.0.0 || 2.6.0")])]
        [⟨2, 0, 0⟩, ⟨2, 3, 0⟩, ⟨2, 6, 0⟩]).rangesRaw = [("node", ">= 2.0")] ∧
    ([⟨2, 0, 0⟩, ⟨2, 3, 0⟩, ⟨2, 6, 0⟩] : List Version).filter
        (fun v => satisfies v ">= 2.0") = [⟨2, 0, 0⟩, ⟨2, 3, 0⟩, ⟨2, 6, 0⟩] ∧
    (pGraphRanges [("q", [("node", "2.0.0 || 2.6.0")])]
        [⟨2, 0, 0⟩, ⟨2, 3, 0⟩, ⟨2, 6, 0⟩]).throws = false := by
  decide

/-- Filtering with the absent display-range entry defaults to the wildcard
and returns the catalog unchanged. -/
theorem vvE_nil (C : List Version) : validVersionsForEngines C [] = C := by
  unfold validVersionsForEngines
  exact filter_star C

/-- C4: with zero contributing constraints the recomputed valid set is the
full catalog, but no display range is produced at all.  The empty-entries
branch returns its valids as an unawaited promise; iterating the entries of
that promise yields nothing, so the synthesized engines and ranges maps are
empty — there is no "node" display range "*" — while the recomputed valid
versions (filtered with the wildcard default) equal the whole catalog. -/
theorem c4_emptyEntries_no_display_range (C : List Version) :
    (pGraphRanges [] C).engines = [] ∧
    (pGraphRanges [] C).rangesRaw = [] ∧
    (pGraphRanges [] C).valids = [("node", C)] ∧
    (pGraphRanges [] C).throws = false := by
  refine ⟨rfl, rfl, ?_, rfl⟩
  show [("node", validVersionsForEngines C [])] = [("node", C)]
  rw [vvE_nil]

/-- C6 counterexample: a dependency whose declared range is unparsable is not
treated as absent.  With catalog {1.0.0} and the single constraint
"not-a-range!", the graph ValidVersionSet resolves to the empty set, while
removing the malformed constraint resolves to the full catalog — the two
differ, refuting the claim. -/
theorem c6_malformed_not_absent_cex :
    resolvedValue (getGraphValids [("p", [("node", "not-a-range!")])]
        [⟨1, 0, 0⟩]).valids = [] ∧
    resolvedValue (getGraphValids [] [(⟨1, 0, 0⟩ : Version)]).valids =
      [⟨1, 0, 0⟩] := by
  decide

/-- C10: the equality-operator normalization.  For every catalog, the root
declared range "=14" and the root declared range "= 14" normalize to the same
string and resolve to identical root outputs; the resolution succeeds and the
root ValidVersionSet is the catalog filtered with "= 14". -/
theorem c10_eq_normalization (C : List Version) :
    pRootRanges C (some "=14") = pRootRanges C (some "= 14") ∧
    rootValidsOf (pRootRanges C (some "=14")) =
      some (C.filter fun v => satisfies v "= 14") := by
  exact ⟨rfl, rfl⟩

/-! ## General resolver lemmas and the remaining claim theorems -/

/-- With a non-empty constraint list, the merged valids are the descending
sort of the intersection of the per-package filtered sets. -/
theorem getGraphValids_cons (q : String × EngMap) (L2 : List (String × EngMap))
    (C : List Version) :
    (getGraphValids (q :: L2) C).valids =
      .ready (sortVersionsDesc (intersectLists
        ((q :: L2).map fun p => validVersionsForEngines C p.2))) := by
  unfold getGraphValids
  simp [List.map_map, Function.comp_def]

/-- A filtered set is a subset of its catalog. -/
theorem mem_vvE_subset {v : Version} {C : List Version} {m : EngMap}
    (h : v ∈ validVersionsForEngines C m) : v ∈ C := by
  unfold validVersionsForEngines at h
  exact (List.mem_filter.mp h).1

/-- C3: intersection correctness of the graph resolver.  A version is in the
merged result exactly when it is a catalog version lying in the filtered set
of every constraint; for an empty constraint list the (resolved) result is
the full catalog unchanged, and for a non-empty list the result is sorted
descending by semver precedence. -/
theorem c3_graph_intersection_correct (L : List (String × EngMap))
    (C : List Version) :
    (∀ v, v ∈ resolvedValue (getGraphValids L C).valids ↔
      (v ∈ C ∧ ∀ p ∈ L, v ∈ validVersionsForEngines C p.2)) ∧
    (if L.isEmpty then resolvedValue (getGraphValids L C).valids = C
     else List.Sorted descLe (resolvedValue (getGraphValids L C).valids)) := by
  cases L with
  | nil =>
    have hres : resolvedValue (getGraphValids [] C).valids = C := by
      show validVersionsForEngines C [("node", "*")] = C
      exact vvE_star C
    constructor
    · intro v
      rw [hres]
      simp
    · simpa using hres
  | cons q L2 =>
    have hres : resolvedValue (getGraphValids (q :: L2) C).valids =
        sortVersionsDesc (intersectLists
          ((q :: L2).map fun p => validVersionsForEngines C p.2)) := by
      rw [getGraphValids_cons]
      rfl
    constructor
    · intro v
      rw [hres, mem_sortVersionsDesc, List.map_cons, mem_intersectLists]
      constructor
      · rintro ⟨h1, h2⟩
        refine ⟨mem_vvE_subset h1, ?_⟩
        intro p hp
        rcases List.mem_cons.mp hp with h | h
        · rw [h]
          exact h1
        · exact h2 _ (List.mem_map_of_mem _ h)
      · rintro ⟨hvC, hall⟩
        refine ⟨hall q (List.mem_cons_self _ _), ?_⟩
        intro l2 hl2
        rcases List.mem_map.mp hl2 with ⟨p, hpL, hpe⟩
        rw [← hpe]
        exact hall p (List.mem_cons_of_mem _ hpL)
    · simp only [List.isEmpty_cons, Bool.false_eq_true, if_false]
      rw [hres]
      exact sorted_sortVersionsDesc _

/-- C6 amended: a constraint whose effective range is unparsable contributes
an empty filtered set, collapsing the whole graph intersection to the empty
set (fail-closed, not treated as absent); an unparsable root declared range
makes the root resolution fail with an error instead of contributing no
restriction. -/
theorem c6_malformed_fail_closed (C : List Version) (L : List (String × EngMap))
    (p : String × EngMap) (hp : p ∈ L)
    (hbad : parseRange (jsOr (List.lookup "node" p.2)) = none)
    (r : String)
    (hroot : parseRange (jsOr (some (normalizeEq r))) = none) :
    resolvedValue (getGraphValids L C).valids = [] ∧
      rootIsError (pRootRanges C (some r)) = true := by
  constructor
  · cases L with
    | nil => cases hp
    | cons q L2 =>
      have hvvE : validVersionsForEngines C p.2 = [] := by
        unfold validVersionsForEngines
        exact List.filter_eq_nil_iff.mpr fun v _ => by
          simp [satisfies_of_parse_none hbad]
      have hmem : ([] : List Version) ∈
          (q :: L2).map fun x => validVersionsForEngines C x.2 := by
        rw [← hvvE]
        exact List.mem_map_of_mem _ hp
      rw [getGraphValids_cons]
      show sortVersionsDesc (intersectLists _) = []
      rw [intersectLists_of_mem_nil hmem]
      rfl
  · unfold pRootRanges
    simp [hroot, rootIsError]

/-- Witness for the amended C6 at a concrete input: catalog {2.0.0}, the
single constraint "not-a-range!", and the same string as root range. -/
theorem c6_malformed_fail_closed_witness :
    resolvedValue (getGraphValids [("p", [("node", "not-a-range!")])]
        [(⟨2, 0, 0⟩ : Version)]).valids = [] ∧
      rootIsError (pRootRanges [(⟨2, 0, 0⟩ : Version)]
        (some "not-a-range!")) = true :=
  c6_malformed_fail_closed [⟨2, 0, 0⟩] [("p", [("node", "not-a-range!")])]
    ("p", [("node", "not-a-range!")]) (by decide) (by decide)
    "not-a-range!" (by decide)

/-- C7: threshold preference.  For any ValidVersionSet whose lowest member is
2.0.0 (its last element in the descending order the resolver produces) and
all of whose members are at or above 2.0.0 — the "everything from 2.0.0
upward, no holes below the top" shape — the synthesizer produces the single
threshold ">= 2.0" (displayed ">= 2"), not a union of caret ranges, and the
consistency check passes. -/
theorem c7_threshold_preference (versions : List Version)
    (hlast : versions.getLast? = some ⟨2, 0, 0⟩)
    (hge : ∀ v ∈ versions, Version.leb ⟨2, 0, 0⟩ v = true) :
    synthRange true versions = ⟨">= 2.0", ">= 2", false⟩ := by
  have hne : versions ≠ [] := by
    intro h
    rw [h] at hlast
    cases hlast
  have hEmpty : versions.isEmpty = false := by
    cases versions with
    | nil => exact absurd rfl hne
    | cons a t => rfl
  have hrevhead : versions.reverse.head? = some ⟨2, 0, 0⟩ := by
    rw [List.head?_reverse, hlast]
  obtain ⟨a, t, hasc⟩ : ∃ a t, versions.reverse = a :: t := by
    cases hv : versions.reverse with
    | nil =>
      rw [hv] at hrevhead
      cases hrevhead
    | cons a t => exact ⟨a, t, rfl⟩
  have ha : a = ⟨2, 0, 0⟩ := by
    rw [hasc] at hrevhead
    injection hrevhead
  have hanch := anchors_head a t
  have hanchhead : (versions.reverse.foldl anchorStep []).head? = some ⟨2, 0, 0⟩ := by
    rw [hasc, hanch.1, ha]
  have hlm : ((((versions.reverse.foldl anchorStep []).map dropPatch).reverse).getLast?).getD "*"
      = "^2.0" := by
    rw [List.getLast?_reverse, List.head?_map, hanchhead]
    rfl
  have hbe : (("^2.0" : String) == "*") = false := by decide
  have hgt : String.mk ('>' :: '=' :: ' ' :: dropCaretMark ("^2.0" : String).data)
      = ">= 2.0" := rfl
  have hall : versions.all (fun v => satisfies v ">= 2.0") = true := by
    rw [List.all_eq_true]
    intro v hv
    rw [satisfies_ge20]
    exact hge v hv
  have hsd : stripDotZeros ">= 2.0" = ">= 2" := rfl
  unfold synthRange
  simp only [hEmpty, Bool.not_false, Bool.and_self, if_true, hlm, hbe,
    Bool.false_eq_true, if_false, hgt, hall, Bool.not_true, hsd]

/-- Witness for C7 at the concrete descending set {3.0.0, 2.3.0, 2.0.0}. -/
theorem c7_threshold_preference_witness :
    synthRange true [⟨3, 0, 0⟩, ⟨2, 3, 0⟩, ⟨2, 0, 0⟩] = ⟨">= 2.0", ">= 2", false⟩ :=
  c7_threshold_preference [⟨3, 0, 0⟩, ⟨2, 3, 0⟩, ⟨2, 0, 0⟩] (by decide) (by decide)

/-- C9: a non-empty constraint list whose intersection over the catalog is
empty synthesizes the wildcard: the display and raw ranges are both "*", no
error is raised (the verification passes vacuously on the empty set), and the
validVersions recomputed by filtering the catalog with the display string are
the full catalog rather than the empty set. -/
theorem c9_empty_intersection_wildcard (L : List (String × EngMap))
    (C : List Version) (hne : L ≠ [])
    (hint : intersectLists (L.map fun p => validVersionsForEngines C p.2) = []) :
    (pGraphRanges L C).engines = [("node", "*")] ∧
    (pGraphRanges L C).rangesRaw = [("node", "*")] ∧
    (pGraphRanges L C).valids = [("node", C)] ∧
    (pGraphRanges L C).throws = false := by
  cases L with
  | nil => exact absurd rfl hne
  | cons q L2 =>
    have hval : (getGraphValids (q :: L2) C).valids = .ready [] := by
      rw [getGraphValids_cons, hint]
      rfl
    have hsynth : synthRange (!(q :: L2).isEmpty) [] = ⟨"*", "*", false⟩ := rfl
    unfold pGraphRanges
    simp only [hval, pendingEntriesNode, List.map_cons, List.map_nil, hsynth,
      List.any_cons, List.any_nil]
    exact ⟨trivial, trivial, by rw [vvE_star], rfl⟩

/-- Witness for C9: two constraints pinning disjoint exact versions have an
empty intersection over the catalog {1.0.0, 2.0.0}. -/
theorem c9_empty_intersection_wildcard_witness :
    (pGraphRanges [("a", [("node", "1.0.0")]), ("b", [("node", "2.0.0")])]
        [⟨1, 0, 0⟩, ⟨2, 0, 0⟩]).engines = [("node", "*")] ∧
    (pGraphRanges [("a", [("node", "1.0.0")]), ("b", [("node", "2.0.0")])]
        [⟨1, 0, 0⟩, ⟨2, 0, 0⟩]).rangesRaw = [("node", "*")] ∧
    (pGraphRanges [("a", [("node", "1.0.0")]), ("b", [("node", "2.0.0")])]
        [⟨1, 0, 0⟩, ⟨2, 0, 0⟩]).valids = [("node", [⟨1, 0, 0⟩, ⟨2, 0, 0⟩])] ∧
    (pGraphRanges [("a", [("node", "1.0.0")]), ("b", [("node", "2.0.0")])]
        [⟨1, 0, 0⟩, ⟨2, 0, 0⟩]).throws = false :=
  c9_empty_intersection_wildcard
    [("a", [("node", "1.0.0")]), ("b", [("node", "2.0.0")])]
    [⟨1, 0, 0⟩, ⟨2, 0, 0⟩] (by decide) (by decide)

/-- C8: a package record contributes a constraint exactly when it is not
bundled and, for the selected engine, declares a non-empty range different
from the universal wildcard.  In particular a bundled package with a specific
range, and a package whose only declaration is the wildcard, contribute
nothing. -/
theorem c8_extractor_contribution (e : String) (inv : List PackageRecord) :
    pGraphEntries [e] inv =
      (inv.filter fun r => !r.bundled && specContributes e r).map
        fun r => (r.name, r.engines.getD []) := by
  unfold pGraphEntries
  rw [filter_map_filter]
  congr 1
  apply List.filter_congr
  intro r _
  cases hm : r.engines with
  | none =>
    simp [specContributes, hm, jsTruthy]
  | some m =>
    cases hl : m.lookup e with
    | none =>
      simp [specContributes, hm, hl, jsTruthy]
    | some s =>
      by_cases hs0 : s = ""
      · subst hs0
        simp [specContributes, hm, hl, jsTruthy]
      · by_cases hsS : s = "*"
        · subst hsS
          simp [specContributes, hm, hl, jsTruthy]
        · simp [specContributes, hm, hl, jsTruthy, hs0, hsS, Bool.and_assoc]
